import Mathlib

/-!
Verification of `src/icons/icon_organizer.py`.

The file shallowly embeds the algorithmic core of `organize_icons`:
MD5 grouping, representative selection, perceptual-hash grouping, the
order-sensitive similarity-clustering pass, the unique-icon selection
loop, and the destination-name computation of the copy loops.

Paths are an abstract type `β`; hash values are `String` (generic `α` in
the grouping machinery).  `calculate_file_md5` and `calculate_image_hash`
catch every exception and return `None`, so they are modelled as
parameters of type `β → Option String`; a `none` result stands for a
logged per-file failure.  Directory walking and the byte-level copy are
I/O glue outside the algorithmic core (the spec treats them as external
collaborators), so `organize_icons` takes the discovered path list as
input and the copy loops are modelled by the destination names they
choose.
-/

namespace IconOrganizer

variable {α β : Type}

/-- One `defaultdict(list)` update as in `md5_groups[h].append(p)`:
append `p` to the bucket keyed `h`, creating the bucket at the end when
the key is new (Python dicts keep insertion order). -/
def insertGrouped [DecidableEq α] : List (α × List β) → α → β → List (α × List β)
  | [], h, p => [(h, [p])]
  | (k, ps) :: rest, h, p =>
    if k = h then (k, ps ++ [p]) :: rest else (k, ps) :: insertGrouped rest h p

/-- Bucket of key `k` in an association list (empty when absent). -/
def valueOf [DecidableEq α] (k : α) : List (α × List β) → List β
  | [] => []
  | (h, ps) :: rest => if h = k then ps else valueOf k rest

/-- One iteration of the grouping loops (lines 64-67 and 81-84): paths
whose hash computation failed (`None`) are skipped. -/
def groupStep [DecidableEq α] (f : β → Option α) (acc : List (α × List β)) (p : β) :
    List (α × List β) :=
  match f p with
  | some h => insertGrouped acc h p
  | none => acc

/-- The grouping loops of `organize_icons`: fold the discovered paths
into hash-keyed buckets in discovery order. -/
def groupByHash [DecidableEq α] (f : β → Option α) (input : List β) : List (α × List β) :=
  input.foldl (groupStep f) []

/-- `unique_images`: the first path of every digest group
(`file_paths[0]` at line 74), in key insertion order. -/
def firstPaths (gs : List (α × List β)) : List β :=
  gs.filterMap fun g => g.2.head?

/-- `duplicate_count`: the sum of `len(file_paths) - 1` over the digest
groups (line 75). -/
def duplicateCountOf (gs : List (α × List β)) : Nat :=
  (gs.map fun g => g.2.length - 1).sum

/-- Total number of paths stored in a group list. -/
def sumLens (gs : List (α × List β)) : Nat :=
  (gs.map fun g => g.2.length).sum

/-- Line 101: `sum(c1 != c2 for c1, c2 in zip(phash, other_phash))` -
the count of differing characters at matching positions of the two hash
strings (`zip` truncates to the shorter string). -/
def hammingDist (a b : String) : Nat :=
  (a.toList.zip b.toList).countP fun c => decide (c.1 ≠ c.2)

/-- Stated from the spec's words: the count of positions at which the
two (equal-length) hex strings differ, character level. -/
def charDiffCount (a b : String) : Nat :=
  ((List.range a.toList.length).filter fun i => decide (a.toList.get? i ≠ b.toList.get? i)).length

/-- The inner merge scan (lines 98-104): walk every fingerprint group,
and for each `other` key that is not the seed, not yet processed and
within distance `T` of the seed, extend the cluster with its paths and
mark it processed. -/
def scanOthers [DecidableEq α] (d : α → α → Nat) (T : Nat) (seed : α) :
    List (α × List β) → List β → List α → List β × List α
  | [], cluster, processed => (cluster, processed)
  | (other, opaths) :: rest, cluster, processed =>
    if other ≠ seed ∧ other ∉ processed ∧ d seed other ≤ T then
      scanOthers d T seed rest (cluster ++ opaths) (other :: processed)
    else
      scanOthers d T seed rest cluster processed

/-- The outer clustering loop (lines 90-107): each not-yet-processed
fingerprint seeds a cluster holding its own group's paths, is marked
processed, runs the merge scan over the whole group list, and the
cluster is appended to `similar_groups` when it holds more than one
path. -/
def clusterLoop [DecidableEq α] (d : α → α → Nat) (T : Nat) (all : List (α × List β)) :
    List (α × List β) → List (List β) → List α → List (List β) × List α
  | [], sims, processed => (sims, processed)
  | (seed, paths) :: rest, sims, processed =>
    if seed ∈ processed then clusterLoop d T all rest sims processed
    else
      let res := scanOthers d T seed all paths (seed :: processed)
      clusterLoop d T all rest (if 1 < res.1.length then sims ++ [res.1] else sims) res.2

/-- Instrumented copy of `clusterLoop` that records each retained
cluster together with the fingerprint that seeded it; the path lists it
returns are proved identical to `clusterLoop`'s. -/
def clusterLoopSeeded [DecidableEq α] (d : α → α → Nat) (T : Nat) (all : List (α × List β)) :
    List (α × List β) → List (α × List β) → List α → List (α × List β) × List α
  | [], sims, processed => (sims, processed)
  | (seed, paths) :: rest, sims, processed =>
    if seed ∈ processed then clusterLoopSeeded d T all rest sims processed
    else
      let res := scanOthers d T seed all paths (seed :: processed)
      clusterLoopSeeded d T all rest
        (if 1 < res.1.length then sims ++ [(seed, res.1)] else sims) res.2

/-- Result record of one `organize_icons` run: the counts it reports and
the intermediate structures the claims talk about. -/
structure OrganizeResult (β : Type) where
  totalImages : Nat
  md5Groups : List (String × List β)
  duplicateCount : Nat
  uniqueImages : List β
  phashGroups : List (String × List β)
  similarGroups : List (List β)
  processedHashes : List String
  uniqueCandidates : List (String × List β)
  uniqueCount : Nat

/-- The algorithmic core of `organize_icons` (lines 60-133): MD5
grouping, representative selection and duplicate counting, perceptual
grouping, similarity clustering, and the unique-icon selection loop
(whose guard at line 122 is `len(file_paths) == 1 and phash not in
processed_hashes`); `unique_count` is the number of groups passing that
guard. -/
def organize_icons (md5f phashf : β → Option String) (T : Nat) (allImages : List β) :
    OrganizeResult β :=
  let md5Groups := groupByHash md5f allImages
  let uniqueImages := firstPaths md5Groups
  let phashGroups := groupByHash phashf uniqueImages
  let res := clusterLoop hammingDist T phashGroups phashGroups [] []
  let uniqueCandidates :=
    phashGroups.filter fun g => decide (g.2.length = 1) && decide (g.1 ∉ res.2)
  { totalImages := allImages.length
    md5Groups := md5Groups
    duplicateCount := duplicateCountOf md5Groups
    uniqueImages := uniqueImages
    phashGroups := phashGroups
    similarGroups := res.1
    processedHashes := res.2
    uniqueCandidates := uniqueCandidates
    uniqueCount := uniqueCandidates.length }

/-- Destination base name `basename(src)` rendered from its
`splitext` pair. -/
def fullName (b e : String) : String := b ++ e

/-- Collision destination `f"{base}_{j}{ext}"` of lines 130 and 148. -/
def suffixedName (b e : String) (j : Nat) : String := b ++ "_" ++ toString j ++ e

/-- Destination names chosen by the group copy loop (lines 141-150):
file names are `(base, ext)` splitext pairs, `j` the enumeration index,
`fs` the names already present in the (freshly created) group directory;
`shutil.copy2` writes `dst` unconditionally, overwriting any existing
file of that name. -/
def copyGroupDests : List (String × String) → Nat → List String → List String
  | [], _, _ => []
  | (b, e) :: rest, j, fs =>
    let dst := if fullName b e ∈ fs then suffixedName b e j else fullName b e
    dst :: copyGroupDests rest (j + 1) (dst :: fs)

/-- Concrete digest function for the three-file scenario: `b.png` is
byte-identical to `a.png`, `c.png` differs. -/
def md5Demo : String → Option String := fun p =>
  if p = "a.png" then some "m1"
  else if p = "b.png" then some "m1"
  else if p = "c.png" then some "m2"
  else none

/-- Concrete fingerprint function for the three-file scenario: `c.png`'s
fingerprint differs from `a.png`'s in exactly one character position. -/
def phashDemo : String → Option String := fun p =>
  if p = "a.png" then some "0000000000000000"
  else if p = "c.png" then some "0000000000000003"
  else none

/-- Concrete digest function for a one-file run. -/
def md5Solo : String → Option String := fun p =>
  if p = "d.png" then some "m0" else none

/-- Concrete fingerprint function for a one-file run. -/
def phashSolo : String → Option String := fun p =>
  if p = "d.png" then some "0000000000000000" else none

/-- Concrete fingerprint groups used to exercise the clustering pass at
two different thresholds. -/
def cexGroups : List (String × List String) :=
  [("aaaaaa", ["pA1", "pA2"]), ("bbbbba", ["pB"]), ("bbbbbb", ["pC"])]

/-! ### Lemmas about the grouping pass -/

theorem valueOf_insertGrouped [DecidableEq α] (acc : List (α × List β)) (h k : α) (p : β) :
    valueOf k (insertGrouped acc h p) =
      if h = k then valueOf k acc ++ [p] else valueOf k acc := by
  induction acc with
  | nil => by_cases hk : h = k <;> simp [insertGrouped, valueOf, hk]
  | cons g rest ih =>
    obtain ⟨k', ps'⟩ := g
    by_cases hk' : k' = h
    · subst hk'
      by_cases hk : k' = k <;> simp [insertGrouped, valueOf, hk]
    · by_cases hk2 : k' = k
      · have hne : ¬ h = k := fun e => hk' (hk2.trans e.symm)
        have hkh : ¬ k = h := fun e => hne e.symm
        simp [insertGrouped, hk', valueOf, hk2, hne, hkh]
      · simp [insertGrouped, hk', valueOf, hk2, ih]

theorem keys_insertGrouped [DecidableEq α] (acc : List (α × List β)) (h : α) (p : β) :
    (insertGrouped acc h p).map Prod.fst =
      if h ∈ acc.map Prod.fst then acc.map Prod.fst else acc.map Prod.fst ++ [h] := by
  induction acc with
  | nil => simp [insertGrouped]
  | cons g rest ih =>
    obtain ⟨k', ps'⟩ := g
    by_cases hk' : k' = h
    · subst hk'
      simp [insertGrouped]
    · have hne : ¬ h = k' := fun e => hk' e.symm
      by_cases hmem : h ∈ rest.map Prod.fst <;>
        simp [insertGrouped, hk', ih, hmem, hne]

theorem nodupKeys_insertGrouped [DecidableEq α] (acc : List (α × List β)) (h : α) (p : β)
    (hnd : (acc.map Prod.fst).Nodup) : ((insertGrouped acc h p).map Prod.fst).Nodup := by
  rw [keys_insertGrouped]
  by_cases hmem : h ∈ acc.map Prod.fst
  · simpa [hmem] using hnd
  · simp only [hmem, if_neg, ite_false]
    exact List.Nodup.append hnd (List.nodup_singleton h) (by simpa using hmem)

theorem sumLens_insertGrouped [DecidableEq α] (acc : List (α × List β)) (h : α) (p : β) :
    sumLens (insertGrouped acc h p) = sumLens acc + 1 := by
  induction acc with
  | nil => simp [insertGrouped, sumLens]
  | cons g rest ih =>
    obtain ⟨k', ps'⟩ := g
    by_cases hk' : k' = h <;> simp [insertGrouped, hk', sumLens] <;>
      simp [sumLens] at ih <;> omega

theorem nonempty_insertGrouped [DecidableEq α] (acc : List (α × List β)) (h : α) (p : β)
    (hne : ∀ g ∈ acc, g.2 ≠ []) : ∀ g ∈ insertGrouped acc h p, g.2 ≠ [] := by
  induction acc with
  | nil => simp [insertGrouped]
  | cons g0 rest ih =>
    obtain ⟨k', ps'⟩ := g0
    have hps' : ps' ≠ [] := hne _ (List.mem_cons_self _ _)
    have hrest : ∀ g ∈ rest, g.2 ≠ [] := fun g' hg' => hne g' (List.mem_cons_of_mem _ hg')
    intro g hg
    by_cases hk' : k' = h
    · simp only [insertGrouped, if_pos hk', List.mem_cons] at hg
      rcases hg with hg | hg
      · subst hg; simp
      · exact hrest g hg
    · simp only [insertGrouped, if_neg hk', List.mem_cons] at hg
      rcases hg with hg | hg
      · subst hg; exact hps'
      · exact ih hrest g hg

theorem wf_insertGrouped [DecidableEq α] (f : β → Option α) (acc : List (α × List β))
    (h : α) (p : β) (hfp : f p = some h)
    (hwf : ∀ g ∈ acc, ∀ x ∈ g.2, f x = some g.1) :
    ∀ g ∈ insertGrouped acc h p, ∀ x ∈ g.2, f x = some g.1 := by
  induction acc with
  | nil =>
    intro g hg x hx
    simp only [insertGrouped, List.mem_singleton] at hg
    subst hg
    simp only [List.mem_singleton] at hx
    subst hx
    exact hfp
  | cons g0 rest ih =>
    obtain ⟨k', ps'⟩ := g0
    have hhead : ∀ x ∈ ps', f x = some k' := hwf _ (List.mem_cons_self _ _)
    have hrest : ∀ g ∈ rest, ∀ x ∈ g.2, f x = some g.1 :=
      fun g' hg' => hwf g' (List.mem_cons_of_mem _ hg')
    intro g hg x hx
    by_cases hk' : k' = h
    · simp only [insertGrouped, if_pos hk', List.mem_cons] at hg
      rcases hg with hg | hg
      · subst hg
        simp only [List.mem_append, List.mem_singleton] at hx
        rcases hx with hx | hx
        · exact hhead x hx
        · subst hx; rw [hfp, hk']
      · exact hrest g hg x hx
    · simp only [insertGrouped, if_neg hk', List.mem_cons] at hg
      rcases hg with hg | hg
      · subst hg; exact hhead x hx
      · exact ih hrest g hg x hx

theorem firstPaths_insertGrouped [DecidableEq α] (acc : List (α × List β)) (h : α) (p : β)
    (hne : ∀ g ∈ acc, g.2 ≠ []) :
    firstPaths (insertGrouped acc h p) =
      if h ∈ acc.map Prod.fst then firstPaths acc else firstPaths acc ++ [p] := by
  induction acc with
  | nil => simp [insertGrouped, firstPaths]
  | cons g0 rest ih =>
    obtain ⟨k', ps'⟩ := g0
    have hps' : ps' ≠ [] := hne _ (List.mem_cons_self _ _)
    have ihr := ih (fun g' hg' => hne g' (List.mem_cons_of_mem _ hg'))
    simp only [firstPaths] at ihr ⊢
    obtain ⟨q, qs, rfl⟩ := List.exists_cons_of_ne_nil hps'
    by_cases hk' : k' = h
    · subst hk'
      simp [insertGrouped]
    · have hne2 : ¬ h = k' := fun e => hk' e.symm
      by_cases hmem : h ∈ rest.map Prod.fst <;>
        simp [insertGrouped, hk', hne2, hmem, ihr]

theorem mem_keys_insertGrouped [DecidableEq α] (acc : List (α × List β)) (h k : α) (p : β) :
    k ∈ (insertGrouped acc h p).map Prod.fst ↔ k ∈ acc.map Prod.fst ∨ k = h := by
  rw [keys_insertGrouped]
  by_cases hmem : h ∈ acc.map Prod.fst
  · simp only [if_pos hmem]
    constructor
    · exact Or.inl
    · rintro (hk | rfl)
      · exact hk
      · exact hmem
  · simp [if_neg hmem]

theorem valueOf_foldl_groupStep [DecidableEq α] (f : β → Option α) (k : α) (l : List β) :
    ∀ acc : List (α × List β),
      valueOf k (l.foldl (groupStep f) acc) =
        valueOf k acc ++ l.filter fun p => decide (f p = some k) := by
  induction l with
  | nil => intro acc; simp
  | cons p l ih =>
    intro acc
    rw [List.foldl_cons, List.filter_cons, ih]
    cases hfp : f p with
    | none =>
      have hne : ¬ (f p = some k) := by simp [hfp]
      simp [groupStep, hfp, hne]
    | some h =>
      simp only [groupStep, hfp, valueOf_insertGrouped]
      by_cases hk : h = k
      · subst hk
        simp [hfp]
      · simp [hfp, hk]

theorem valueOf_groupByHash [DecidableEq α] (f : β → Option α) (input : List β) (k : α) :
    valueOf k (groupByHash f input) = input.filter fun p => decide (f p = some k) := by
  simpa [valueOf] using valueOf_foldl_groupStep f k input []

theorem mem_keys_foldl_groupStep [DecidableEq α] (f : β → Option α) (k : α) (l : List β) :
    ∀ acc : List (α × List β),
      k ∈ (l.foldl (groupStep f) acc).map Prod.fst ↔
        k ∈ acc.map Prod.fst ∨ ∃ p ∈ l, f p = some k := by
  induction l with
  | nil => intro acc; simp
  | cons p l ih =>
    intro acc
    rw [List.foldl_cons, ih]
    cases hfp : f p with
    | none =>
      have hne : ¬ (f p = some k) := by simp [hfp]
      simp only [groupStep, hfp, List.mem_cons]
      constructor
      · rintro (hk | hk)
        · exact Or.inl hk
        · exact Or.inr ⟨hk.choose, Or.inr hk.choose_spec.1, hk.choose_spec.2⟩
      · rintro (hk | ⟨q, hq | hq, hfq⟩)
        · exact Or.inl hk
        · exact absurd (hq ▸ hfq) hne
        · exact Or.inr ⟨q, hq, hfq⟩
    | some h =>
      simp only [groupStep, hfp, mem_keys_insertGrouped, List.mem_cons]
      constructor
      · rintro ((hk | rfl) | hk)
        · exact Or.inl hk
        · exact Or.inr ⟨p, Or.inl rfl, hfp⟩
        · exact Or.inr ⟨hk.choose, Or.inr hk.choose_spec.1, hk.choose_spec.2⟩
      · rintro (hk | ⟨q, rfl | hq, hfq⟩)
        · exact Or.inl (Or.inl hk)
        · rw [hfp] at hfq
          exact Or.inl (Or.inr (Option.some_injective _ hfq.symm))
        · exact Or.inr ⟨q, hq, hfq⟩

theorem mem_keys_groupByHash [DecidableEq α] (f : β → Option α) (input : List β) (k : α) :
    k ∈ (groupByHash f input).map Prod.fst ↔ ∃ p ∈ input, f p = some k := by
  simpa using mem_keys_foldl_groupStep f k input []

theorem nodupKeys_groupByHash [DecidableEq α] (f : β → Option α) (input : List β) :
    ((groupByHash f input).map Prod.fst).Nodup := by
  have haux : ∀ (l : List β) (acc : List (α × List β)), (acc.map Prod.fst).Nodup →
      ((l.foldl (groupStep f) acc).map Prod.fst).Nodup := by
    intro l
    induction l with
    | nil => intro acc h; simpa using h
    | cons p l ih =>
      intro acc h
      rw [List.foldl_cons]
      apply ih
      cases hfp : f p with
      | none => simpa [groupStep, hfp] using h
      | some hh => simpa [groupStep, hfp] using nodupKeys_insertGrouped acc hh p h
  simpa using haux input [] (by simp)

theorem nonempty_groupByHash [DecidableEq α] (f : β → Option α) (input : List β) :
    ∀ g ∈ groupByHash f input, g.2 ≠ [] := by
  have haux : ∀ (l : List β) (acc : List (α × List β)), (∀ g ∈ acc, g.2 ≠ []) →
      ∀ g ∈ l.foldl (groupStep f) acc, g.2 ≠ [] := by
    intro l
    induction l with
    | nil => intro acc h; simpa using h
    | cons p l ih =>
      intro acc h
      rw [List.foldl_cons]
      apply ih
      cases hfp : f p with
      | none => simpa [groupStep, hfp] using h
      | some hh => simpa [groupStep, hfp] using nonempty_insertGrouped acc hh p h
  exact haux input [] (by simp)

theorem wf_groupByHash [DecidableEq α] (f : β → Option α) (input : List β) :
    ∀ g ∈ groupByHash f input, ∀ x ∈ g.2, f x = some g.1 := by
  have haux : ∀ (l : List β) (acc : List (α × List β)),
      (∀ g ∈ acc, ∀ x ∈ g.2, f x = some g.1) →
      ∀ g ∈ l.foldl (groupStep f) acc, ∀ x ∈ g.2, f x = some g.1 := by
    intro l
    induction l with
    | nil => intro acc h; simpa using h
    | cons p l ih =>
      intro acc h
      rw [List.foldl_cons]
      apply ih
      cases hfp : f p with
      | none => simpa [groupStep, hfp] using h
      | some hh => simpa [groupStep, hfp] using wf_insertGrouped f acc hh p hfp h
  exact haux input [] (by simp)

theorem sumLens_groupByHash [DecidableEq α] (f : β → Option α) (input : List β) :
    sumLens (groupByHash f input) = (input.filter fun p => (f p).isSome).length := by
  have haux : ∀ (l : List β) (acc : List (α × List β)),
      sumLens (l.foldl (groupStep f) acc) =
        sumLens acc + (l.filter fun p => (f p).isSome).length := by
    intro l
    induction l with
    | nil => intro acc; simp
    | cons p l ih =>
      intro acc
      rw [List.foldl_cons, List.filter_cons]
      cases hfp : f p with
      | none => simp [groupStep, hfp, ih]
      | some hh =>
        simp only [groupStep, hfp, ih, sumLens_insertGrouped, Option.isSome_some,
          if_pos, List.length_cons]
        omega
  simpa [sumLens] using haux input []

theorem mem_eq_valueOf [DecidableEq α] {gs : List (α × List β)}
    (hnd : (gs.map Prod.fst).Nodup) {h : α} {ps : List β} (hmem : (h, ps) ∈ gs) :
    ps = valueOf h gs := by
  induction gs with
  | nil => cases hmem
  | cons g rest ih =>
    obtain ⟨k', ps'⟩ := g
    rw [List.map_cons, List.nodup_cons] at hnd
    rcases List.mem_cons.mp hmem with hg | hg
    · obtain ⟨rfl, rfl⟩ := Prod.mk.injEq .. ▸ hg
      simp [valueOf]
    · have hk : h ∈ rest.map Prod.fst := List.mem_map_of_mem Prod.fst hg
      have hk'h : ¬ k' = h := fun e => hnd.1 (e ▸ hk)
      rw [valueOf, if_neg hk'h]
      exact ih hnd.2 hg

theorem head?_filter_eq_find? (q : β → Bool) (l : List β) :
    (l.filter q).head? = l.find? q := by
  induction l with
  | nil => rfl
  | cons x l ih =>
    by_cases hx : q x <;> simp [List.filter_cons, List.find?_cons, hx, ih]

theorem groupByHash_filter_isSome [DecidableEq α] (f : β → Option α) (input : List β) :
    groupByHash f input = groupByHash f (input.filter fun p => (f p).isSome) := by
  have haux : ∀ (l : List β) (acc : List (α × List β)),
      l.foldl (groupStep f) acc =
        (l.filter fun p => (f p).isSome).foldl (groupStep f) acc := by
    intro l
    induction l with
    | nil => intro acc; rfl
    | cons p l ih =>
      intro acc
      cases hfp : f p with
      | none => simp [List.filter_cons, hfp, groupStep, ih]
      | some h => simp [List.filter_cons, hfp, groupStep, ih]
  exact haux input []

theorem firstPaths_foldl_sublist [DecidableEq α] (f : β → Option α) (l : List β) :
    ∀ acc : List (α × List β), (∀ g ∈ acc, g.2 ≠ []) →
      List.Sublist (firstPaths (l.foldl (groupStep f) acc)) (firstPaths acc ++ l) := by
  induction l with
  | nil => intro acc _; simp
  | cons p l ih =>
    intro acc hacc
    rw [List.foldl_cons]
    cases hfp : f p with
    | none =>
      have hsub := ih acc hacc
      have hstep : (groupStep f acc p) = acc := by simp [groupStep, hfp]
      rw [hstep]
      exact hsub.trans (List.Sublist.append_left (List.sublist_cons_self p l) _)
    | some h =>
      have hacc' : ∀ g ∈ insertGrouped acc h p, g.2 ≠ [] := nonempty_insertGrouped acc h p hacc
      have hsub := ih (insertGrouped acc h p) hacc'
      rw [firstPaths_insertGrouped acc h p hacc] at hsub
      have hstep : (groupStep f acc p) = insertGrouped acc h p := by simp [groupStep, hfp]
      rw [hstep]
      by_cases hmem : h ∈ acc.map Prod.fst
      · rw [if_pos hmem] at hsub
        exact hsub.trans (List.Sublist.append_left (List.sublist_cons_self p l) _)
      · rw [if_neg hmem] at hsub
        refine hsub.trans ?_
        rw [List.append_assoc]
        exact List.Sublist.refl _

theorem firstPaths_groupByHash_sublist [DecidableEq α] (f : β → Option α) (input : List β) :
    List.Sublist (firstPaths (groupByHash f input)) input := by
  simpa [firstPaths] using firstPaths_foldl_sublist f input [] (by simp)

theorem length_firstPaths {gs : List (α × List β)} (hne : ∀ g ∈ gs, g.2 ≠ []) :
    (firstPaths gs).length = gs.length := by
  induction gs with
  | nil => rfl
  | cons g rest ih =>
    obtain ⟨k, ps⟩ := g
    obtain ⟨q, qs, rfl⟩ := List.exists_cons_of_ne_nil (hne _ (List.mem_cons_self _ _))
    have ihr := ih (fun g' hg' => hne g' (List.mem_cons_of_mem _ hg'))
    simp [firstPaths] at ihr ⊢
    exact ihr

theorem duplicateCountOf_add_length {gs : List (α × List β)}
    (hne : ∀ g ∈ gs, g.2 ≠ []) : duplicateCountOf gs + gs.length = sumLens gs := by
  induction gs with
  | nil => rfl
  | cons g rest ih =>
    obtain ⟨k, ps⟩ := g
    have hps : ps ≠ [] := hne _ (List.mem_cons_self _ _)
    have hlen : 1 ≤ ps.length := List.length_pos.mpr hps
    have ihr := ih (fun g' hg' => hne g' (List.mem_cons_of_mem _ hg'))
    have h1 : duplicateCountOf ((k, ps) :: rest) = (ps.length - 1) + duplicateCountOf rest := by
      simp [duplicateCountOf]
    have h2 : sumLens ((k, ps) :: rest) = ps.length + sumLens rest := by
      simp [sumLens]
    rw [h1, h2, List.length_cons]
    omega

theorem length_filter_isSome_add_isNone (f : β → Option α) (l : List β) :
    (l.filter fun p => (f p).isSome).length +
      (l.filter fun p => (f p).isNone).length = l.length := by
  induction l with
  | nil => rfl
  | cons p l ih =>
    cases hfp : f p <;> simp [List.filter_cons, hfp] <;> omega

/-! ### Lemmas about the distance and the merge scan -/

theorem hammingDist_self (a : String) : hammingDist a a = 0 := by
  show (a.toList.zip a.toList).countP _ = 0
  induction a.toList with
  | nil => rfl
  | cons c l ih => simpa [List.countP_cons] using ih

theorem length_filter_range_succ (q : Nat → Bool) (n : Nat) :
    (List.filter q (List.range (n + 1))).length =
      (if q 0 then 1 else 0) + (List.filter (q ∘ Nat.succ) (List.range n)).length := by
  rw [List.range_succ_eq_map, List.filter_cons, List.filter_map]
  by_cases h0 : q 0
  · simp [h0]
    omega
  · simp [h0]

theorem countP_zip_eq_countDiff (l1 : List Char) :
    ∀ l2 : List Char, l1.length = l2.length →
      (l1.zip l2).countP (fun c => decide (c.1 ≠ c.2)) =
        ((List.range l1.length).filter fun i => decide (l1.get? i ≠ l2.get? i)).length := by
  induction l1 with
  | nil =>
    intro l2 hlen
    cases l2 with
    | nil => rfl
    | cons b l2 => simp at hlen
  | cons a l1 ih =>
    intro l2 hlen
    cases l2 with
    | nil => simp at hlen
    | cons b l2 =>
      have hl : l1.length = l2.length := by simpa using hlen
      have ihr := ih l2 hl
      have hq : ((fun i => decide ((a :: l1).get? i ≠ (b :: l2).get? i)) ∘ Nat.succ) =
          fun i => decide (l1.get? i ≠ l2.get? i) := by
        funext i
        simp [Function.comp]
      rw [List.zip_cons_cons, List.countP_cons, List.length_cons,
        length_filter_range_succ, hq, ihr]
      by_cases hab : a = b
      · subst hab
        simp
      · have hne : ¬ ((a :: l1).get? 0 = (b :: l2).get? 0) := by simpa using hab
        simp [hab, hne]
        omega

theorem hammingDist_eq_charDiffCount (a b : String) (hlen : a.toList.length = b.toList.length) :
    hammingDist a b = charDiffCount a b :=
  countP_zip_eq_countDiff a.toList b.toList hlen

theorem scanOthers_cluster_accum [DecidableEq α] (d : α → α → Nat) (T : Nat) (seed : α)
    (gs : List (α × List β)) : ∀ (c : List β) (p : List α),
      (scanOthers d T seed gs c p).1 = c ++ (scanOthers d T seed gs [] p).1 := by
  induction gs with
  | nil => intro c p; simp [scanOthers]
  | cons g rest ih =>
    obtain ⟨other, opaths⟩ := g
    intro c p
    by_cases hcond : other ≠ seed ∧ other ∉ p ∧ d seed other ≤ T
    · simp only [scanOthers]
      rw [if_pos hcond, if_pos hcond, ih (c ++ opaths), ih ([] ++ opaths)]
      simp
    · simp only [scanOthers]
      rw [if_neg hcond, if_neg hcond]
      exact ih c p

theorem scanOthers_processed_superset [DecidableEq α] (d : α → α → Nat) (T : Nat) (seed : α)
    (gs : List (α × List β)) : ∀ (c : List β) (p : List α) (x : α),
      x ∈ p → x ∈ (scanOthers d T seed gs c p).2 := by
  induction gs with
  | nil => intro c p x hx; simpa [scanOthers] using hx
  | cons g rest ih =>
    obtain ⟨other, opaths⟩ := g
    intro c p x hx
    by_cases hcond : other ≠ seed ∧ other ∉ p ∧ d seed other ≤ T
    · simp only [scanOthers]
      rw [if_pos hcond]
      exact ih _ _ x (List.mem_cons_of_mem _ hx)
    · simp only [scanOthers]
      rw [if_neg hcond]
      exact ih _ _ x hx

theorem scanOthers_processed_spec [DecidableEq α] (d : α → α → Nat) (T : Nat) (seed : α)
    (gs : List (α × List β)) : ∀ (c : List β) (p : List α) (x : α),
      x ∈ (scanOthers d T seed gs c p).2 →
      x ∈ p ∨ (x ∈ gs.map Prod.fst ∧ x ≠ seed ∧ d seed x ≤ T) := by
  induction gs with
  | nil => intro c p x hx; exact Or.inl (by simpa [scanOthers] using hx)
  | cons g rest ih =>
    obtain ⟨other, opaths⟩ := g
    intro c p x hx
    by_cases hcond : other ≠ seed ∧ other ∉ p ∧ d seed other ≤ T
    · simp only [scanOthers] at hx
      rw [if_pos hcond] at hx
      rcases ih _ _ x hx with hx' | hx'
      · rcases List.mem_cons.mp hx' with rfl | hx''
        · exact Or.inr ⟨by simp, hcond.1, hcond.2.2⟩
        · exact Or.inl hx''
      · exact Or.inr ⟨List.mem_cons_of_mem _ hx'.1, hx'.2⟩
    · simp only [scanOthers] at hx
      rw [if_neg hcond] at hx
      rcases ih _ _ x hx with hx' | hx'
      · exact Or.inl hx'
      · exact Or.inr ⟨List.mem_cons_of_mem _ hx'.1, hx'.2⟩

theorem scanOthers_merges [DecidableEq α] (d : α → α → Nat) (T : Nat) (seed : α)
    (gs : List (α × List β)) : ∀ (G : α) (gp c : List β) (p : List α),
      (gs.map Prod.fst).Nodup → (G, gp) ∈ gs → G ≠ seed → d seed G ≤ T → G ∉ p →
      G ∈ (scanOthers d T seed gs c p).2 ∧ gp ⊆ (scanOthers d T seed gs c p).1 := by
  induction gs with
  | nil => intro G gp c p _ hmem; cases hmem
  | cons g rest ih =>
    obtain ⟨other, opaths⟩ := g
    intro G gp c p hnd hmem hne hd hGp
    rw [List.map_cons, List.nodup_cons] at hnd
    rcases List.mem_cons.mp hmem with hg | hg
    · have h1 : G = other := congrArg Prod.fst hg
      have h2 : gp = opaths := congrArg Prod.snd hg
      subst h1
      subst h2
      have hcond : G ≠ seed ∧ G ∉ p ∧ d seed G ≤ T := ⟨hne, hGp, hd⟩
      simp only [scanOthers]
      rw [if_pos hcond]
      constructor
      · exact scanOthers_processed_superset d T seed rest _ _ G (List.mem_cons_self _ _)
      · intro x hx
        rw [scanOthers_cluster_accum]
        exact List.mem_append_left _ (List.mem_append_right _ hx)
    · have hGother : G ≠ other := by
        intro e
        apply hnd.1
        rw [← e]
        have hmap := List.mem_map_of_mem Prod.fst hg
        exact hmap
      by_cases hcond : other ≠ seed ∧ other ∉ p ∧ d seed other ≤ T
      · simp only [scanOthers]
        rw [if_pos hcond]
        refine ih G gp (c ++ opaths) (other :: p) hnd.2 hg hne hd ?_
        intro hmem2
        rcases List.mem_cons.mp hmem2 with e | e
        · exact hGother e
        · exact hGp e
      · simp only [scanOthers]
        rw [if_neg hcond]
        exact ih G gp c p hnd.2 hg hne hd hGp

theorem scanOthers_cluster_spec [DecidableEq α] (d : α → α → Nat) (T : Nat) (seed : α)
    (gs : List (α × List β)) : ∀ (c : List β) (p : List α) (x : β),
      x ∈ (scanOthers d T seed gs c p).1 →
      x ∈ c ∨ ∃ G gp, (G, gp) ∈ gs ∧ x ∈ gp ∧ d seed G ≤ T := by
  induction gs with
  | nil => intro c p x hx; exact Or.inl (by simpa [scanOthers] using hx)
  | cons g rest ih =>
    obtain ⟨other, opaths⟩ := g
    intro c p x hx
    by_cases hcond : other ≠ seed ∧ other ∉ p ∧ d seed other ≤ T
    · simp only [scanOthers] at hx
      rw [if_pos hcond] at hx
      rcases ih _ _ x hx with hx' | ⟨G, gp, hmem, hxgp, hdG⟩
      · rcases List.mem_append.mp hx' with hx'' | hx''
        · exact Or.inl hx''
        · exact Or.inr ⟨other, opaths, List.mem_cons_self _ _, hx'', hcond.2.2⟩
      · exact Or.inr ⟨G, gp, List.mem_cons_of_mem _ hmem, hxgp, hdG⟩
    · simp only [scanOthers] at hx
      rw [if_neg hcond] at hx
      rcases ih _ _ x hx with hx' | ⟨G, gp, hmem, hxgp, hdG⟩
      · exact Or.inl hx'
      · exact Or.inr ⟨G, gp, List.mem_cons_of_mem _ hmem, hxgp, hdG⟩

theorem scanOthers_congr_processed [DecidableEq α] (d : α → α → Nat) (T : Nat) (seed : α)
    (gs : List (α × List β)) : ∀ (c : List β) (p q : List α),
      (∀ g ∈ gs, (g.1 ∈ p ↔ g.1 ∈ q)) →
      (scanOthers d T seed gs c p).1 = (scanOthers d T seed gs c q).1 := by
  induction gs with
  | nil => intro c p q _; simp [scanOthers]
  | cons g rest ih =>
    obtain ⟨other, opaths⟩ := g
    intro c p q hpq
    have hother : other ∈ p ↔ other ∈ q := hpq _ (List.mem_cons_self _ _)
    have hrest : ∀ g ∈ rest, (g.1 ∈ other :: p ↔ g.1 ∈ other :: q) := by
      intro g hg
      simp only [List.mem_cons]
      rw [hpq g (List.mem_cons_of_mem _ hg)]
    have hrest' : ∀ g ∈ rest, (g.1 ∈ p ↔ g.1 ∈ q) :=
      fun g hg => hpq g (List.mem_cons_of_mem _ hg)
    by_cases hcond : other ≠ seed ∧ other ∉ p ∧ d seed other ≤ T
    · have hcond2 : other ≠ seed ∧ other ∉ q ∧ d seed other ≤ T :=
        ⟨hcond.1, fun hq => hcond.2.1 (hother.mpr hq), hcond.2.2⟩
      simp only [scanOthers]
      rw [if_pos hcond, if_pos hcond2]
      exact ih _ _ _ hrest
    · have hcond2 : ¬ (other ≠ seed ∧ other ∉ q ∧ d seed other ≤ T) := by
        intro h2
        exact hcond ⟨h2.1, fun hp => h2.2.1 (hother.mp hp), h2.2.2⟩
      simp only [scanOthers]
      rw [if_neg hcond, if_neg hcond2]
      exact ih _ _ _ hrest'

theorem scanOthers_len_mono [DecidableEq α] (d : α → α → Nat) (seed : α) (T1 T2 : Nat)
    (hT : T1 ≤ T2) (gs : List (α × List β)) : ∀ (c : List β) (p : List α),
      (gs.map Prod.fst).Nodup →
      (scanOthers d T1 seed gs c p).1.length ≤ (scanOthers d T2 seed gs c p).1.length := by
  induction gs with
  | nil => intro c p _; simp [scanOthers]
  | cons g rest ih =>
    obtain ⟨other, opaths⟩ := g
    intro c p hnd
    rw [List.map_cons, List.nodup_cons] at hnd
    by_cases h1 : other ≠ seed ∧ other ∉ p ∧ d seed other ≤ T1
    · have h2 : other ≠ seed ∧ other ∉ p ∧ d seed other ≤ T2 :=
        ⟨h1.1, h1.2.1, h1.2.2.trans hT⟩
      simp only [scanOthers]
      rw [if_pos h1, if_pos h2]
      exact ih _ _ hnd.2
    · by_cases h2 : other ≠ seed ∧ other ∉ p ∧ d seed other ≤ T2
      · simp only [scanOthers]
        rw [if_neg h1, if_pos h2]
        have hirrel : (scanOthers d T2 seed rest (c ++ opaths) (other :: p)).1 =
            (scanOthers d T2 seed rest (c ++ opaths) p).1 := by
          apply scanOthers_congr_processed
          intro g hg
          have hne : g.1 ≠ other := by
            intro e
            apply hnd.1
            rw [← e]
            have hmap := List.mem_map_of_mem Prod.fst hg
            exact hmap
          simp [List.mem_cons, hne]
        rw [hirrel, scanOthers_cluster_accum d T2 seed rest (c ++ opaths) p,
          scanOthers_cluster_accum d T1 seed rest c p]
        have hlen := ih ([] : List β) p hnd.2
        simp only [List.length_append]
        omega
      · simp only [scanOthers]
        rw [if_neg h1, if_neg h2]
        exact ih _ _ hnd.2

/-! ### Lemmas about the outer clustering loop -/

theorem clusterLoop_processed_superset [DecidableEq α] (d : α → α → Nat) (T : Nat)
    (all : List (α × List β)) :
    ∀ (rest : List (α × List β)) (sims : List (List β)) (p : List α) (x : α),
      x ∈ p → x ∈ (clusterLoop d T all rest sims p).2 := by
  intro rest
  induction rest with
  | nil => intro sims p x hx; simpa [clusterLoop] using hx
  | cons hd0 rest ih =>
    obtain ⟨seed, paths⟩ := hd0
    intro sims p x hx
    by_cases hmem : seed ∈ p
    · simp only [clusterLoop]
      rw [if_pos hmem]
      exact ih sims p x hx
    · simp only [clusterLoop]
      rw [if_neg hmem]
      exact ih _ _ x
        (scanOthers_processed_superset d T seed all paths _ x (List.mem_cons_of_mem _ hx))

theorem clusterLoop_keys_processed [DecidableEq α] (d : α → α → Nat) (T : Nat)
    (all : List (α × List β)) :
    ∀ (rest : List (α × List β)) (sims : List (List β)) (p : List α) (k : α),
      k ∈ rest.map Prod.fst → k ∈ (clusterLoop d T all rest sims p).2 := by
  intro rest
  induction rest with
  | nil => intro sims p k hk; simp at hk
  | cons hd0 rest ih =>
    obtain ⟨seed, paths⟩ := hd0
    intro sims p k hk
    rw [List.map_cons] at hk
    rcases List.mem_cons.mp hk with rfl | hk'
    · by_cases hmem : k ∈ p
      · simp only [clusterLoop]
        rw [if_pos hmem]
        exact clusterLoop_processed_superset d T all rest sims p k hmem
      · simp only [clusterLoop]
        rw [if_neg hmem]
        exact clusterLoop_processed_superset d T all rest _ _ k
          (scanOthers_processed_superset d T k all paths _ k (List.mem_cons_self _ _))
    · by_cases hmem : seed ∈ p
      · simp only [clusterLoop]
        rw [if_pos hmem]
        exact ih sims p k hk'
      · simp only [clusterLoop]
        rw [if_neg hmem]
        exact ih _ _ k hk'

theorem clusterLoop_sims_mono [DecidableEq α] (d : α → α → Nat) (T : Nat)
    (all : List (α × List β)) :
    ∀ (rest : List (α × List β)) (sims : List (List β)) (p : List α) (g : List β),
      g ∈ sims → g ∈ (clusterLoop d T all rest sims p).1 := by
  intro rest
  induction rest with
  | nil => intro sims p g hg; simpa [clusterLoop] using hg
  | cons hd0 rest ih =>
    obtain ⟨seed, paths⟩ := hd0
    intro sims p g hg
    by_cases hmem : seed ∈ p
    · simp only [clusterLoop]
      rw [if_pos hmem]
      exact ih sims p g hg
    · simp only [clusterLoop]
      rw [if_neg hmem]
      apply ih
      by_cases hlen : 1 < (scanOthers d T seed all paths (seed :: p)).1.length
      · rw [if_pos hlen]
        exact List.mem_append_left _ hg
      · rw [if_neg hlen]
        exact hg

theorem clusterLoop_sims_big [DecidableEq α] (d : α → α → Nat) (T : Nat)
    (all : List (α × List β)) :
    ∀ (rest : List (α × List β)) (sims : List (List β)) (p : List α),
      (∀ g ∈ sims, 1 < g.length) →
      ∀ g ∈ (clusterLoop d T all rest sims p).1, 1 < g.length := by
  intro rest
  induction rest with
  | nil => intro sims p hs g hg; exact hs g (by simpa [clusterLoop] using hg)
  | cons hd0 rest ih =>
    obtain ⟨seed, paths⟩ := hd0
    intro sims p hs g hg
    by_cases hmem : seed ∈ p
    · simp only [clusterLoop] at hg
      rw [if_pos hmem] at hg
      exact ih sims p hs g hg
    · simp only [clusterLoop] at hg
      rw [if_neg hmem] at hg
      refine ih _ _ ?_ g hg
      by_cases hlen : 1 < (scanOthers d T seed all paths (seed :: p)).1.length
      · rw [if_pos hlen]
        intro g' hg'
        rcases List.mem_append.mp hg' with hg'' | hg''
        · exact hs g' hg''
        · rw [List.mem_singleton.mp hg'']
          exact hlen
      · rw [if_neg hlen]
        exact hs

theorem clusterLoop_retains [DecidableEq α] (d : α → α → Nat) (T : Nat)
    (all : List (α × List β)) (rest : List (α × List β)) (sims : List (List β))
    (p : List α) (seed : α) (paths : List β) (hmem : seed ∉ p)
    (hlen : 1 < (scanOthers d T seed all paths (seed :: p)).1.length) :
    (scanOthers d T seed all paths (seed :: p)).1 ∈
      (clusterLoop d T all ((seed, paths) :: rest) sims p).1 := by
  simp only [clusterLoop]
  rw [if_neg hmem, if_pos hlen]
  exact clusterLoop_sims_mono d T all rest _ _ _ (List.mem_append_right _ (List.mem_singleton.mpr rfl))

theorem clusterLoop_sims_sound [DecidableEq α] (d : α → α → Nat) (T : Nat)
    (hashOf : β → Option α) (hdself : ∀ a, d a a = 0) (all : List (α × List β))
    (hall : ∀ g ∈ all, ∀ x ∈ g.2, hashOf x = some g.1) :
    ∀ (rest : List (α × List β)) (sims : List (List β)) (p : List α),
      (∀ g ∈ rest, g.2 ≠ []) →
      (∀ g ∈ rest, ∀ x ∈ g.2, hashOf x = some g.1) →
      (∀ g ∈ sims, ∃ seed x, g.head? = some x ∧ hashOf x = some seed ∧
        ∀ y ∈ g, ∃ h', hashOf y = some h' ∧ d seed h' ≤ T) →
      ∀ g ∈ (clusterLoop d T all rest sims p).1,
        ∃ seed x, g.head? = some x ∧ hashOf x = some seed ∧
          ∀ y ∈ g, ∃ h', hashOf y = some h' ∧ d seed h' ≤ T := by
  intro rest
  induction rest with
  | nil => intro sims p _ _ hsims g hg; exact hsims g (by simpa [clusterLoop] using hg)
  | cons hd0 rest ih =>
    obtain ⟨seed, paths⟩ := hd0
    intro sims p hne hwf hsims g hg
    have hne' : ∀ g ∈ rest, g.2 ≠ [] := fun g' hg' => hne g' (List.mem_cons_of_mem _ hg')
    have hwf' : ∀ g ∈ rest, ∀ x ∈ g.2, hashOf x = some g.1 :=
      fun g' hg' => hwf g' (List.mem_cons_of_mem _ hg')
    by_cases hmem : seed ∈ p
    · simp only [clusterLoop] at hg
      rw [if_pos hmem] at hg
      exact ih sims p hne' hwf' hsims g hg
    · simp only [clusterLoop] at hg
      rw [if_neg hmem] at hg
      refine ih _ _ hne' hwf' ?_ g hg
      intro g' hg'
      by_cases hlen : 1 < (scanOthers d T seed all paths (seed :: p)).1.length
      · rw [if_pos hlen] at hg'
        rcases List.mem_append.mp hg' with hg'' | hg''
        · exact hsims g' hg''
        · rw [List.mem_singleton.mp hg'']
          have hpne : paths ≠ [] := hne _ (List.mem_cons_self _ _)
          obtain ⟨x, xs, hpx⟩ := List.exists_cons_of_ne_nil hpne
          refine ⟨seed, x, ?_, ?_, ?_⟩
          · rw [scanOthers_cluster_accum, hpx]
            rfl
          · have := hwf _ (List.mem_cons_self (seed, paths) rest) x
            rw [hpx] at this
            exact this (List.mem_cons_self _ _)
          · intro y hy
            rcases scanOthers_cluster_spec d T seed all paths (seed :: p) y hy with
              hy' | ⟨G, gp, hG, hygp, hdG⟩
            · refine ⟨seed, hwf _ (List.mem_cons_self (seed, paths) rest) y hy', ?_⟩
              rw [hdself seed]
              exact Nat.zero_le T
            · exact ⟨G, hall _ hG y hygp, hdG⟩
      · rw [if_neg hlen] at hg'
        exact hsims g' hg'

theorem clusterLoopSeeded_agree [DecidableEq α] (d : α → α → Nat) (T : Nat)
    (all : List (α × List β)) :
    ∀ (rest : List (α × List β)) (sims : List (α × List β)) (p : List α),
      ((clusterLoopSeeded d T all rest sims p).1.map Prod.snd,
        (clusterLoopSeeded d T all rest sims p).2) =
      clusterLoop d T all rest (sims.map Prod.snd) p := by
  intro rest
  induction rest with
  | nil => intro sims p; simp [clusterLoop, clusterLoopSeeded]
  | cons hd0 rest ih =>
    obtain ⟨seed, paths⟩ := hd0
    intro sims p
    by_cases hmem : seed ∈ p
    · simp only [clusterLoop, clusterLoopSeeded]
      rw [if_pos hmem, if_pos hmem]
      exact ih sims p
    · simp only [clusterLoop, clusterLoopSeeded]
      rw [if_neg hmem, if_neg hmem]
      by_cases hlen : 1 < (scanOthers d T seed all paths (seed :: p)).1.length
      · rw [if_pos hlen, if_pos hlen, ih]
        simp
      · rw [if_neg hlen, if_neg hlen]
        exact ih sims _

/-! ### Projection lemmas for the full pipeline -/

theorem organize_totalImages (md5f phashf : β → Option String) (T : Nat) (input : List β) :
    (organize_icons md5f phashf T input).totalImages = input.length := rfl

theorem organize_md5Groups (md5f phashf : β → Option String) (T : Nat) (input : List β) :
    (organize_icons md5f phashf T input).md5Groups = groupByHash md5f input := rfl

theorem organize_duplicateCount (md5f phashf : β → Option String) (T : Nat) (input : List β) :
    (organize_icons md5f phashf T input).duplicateCount =
      duplicateCountOf (groupByHash md5f input) := rfl

theorem organize_uniqueImages (md5f phashf : β → Option String) (T : Nat) (input : List β) :
    (organize_icons md5f phashf T input).uniqueImages =
      firstPaths (groupByHash md5f input) := rfl

theorem organize_phashGroups (md5f phashf : β → Option String) (T : Nat) (input : List β) :
    (organize_icons md5f phashf T input).phashGroups =
      groupByHash phashf (firstPaths (groupByHash md5f input)) := rfl

theorem organize_similarGroups (md5f phashf : β → Option String) (T : Nat) (input : List β) :
    (organize_icons md5f phashf T input).similarGroups =
      (clusterLoop hammingDist T (groupByHash phashf (firstPaths (groupByHash md5f input)))
        (groupByHash phashf (firstPaths (groupByHash md5f input))) [] []).1 := rfl

theorem organize_processedHashes (md5f phashf : β → Option String) (T : Nat) (input : List β) :
    (organize_icons md5f phashf T input).processedHashes =
      (clusterLoop hammingDist T (groupByHash phashf (firstPaths (groupByHash md5f input)))
        (groupByHash phashf (firstPaths (groupByHash md5f input))) [] []).2 := rfl

theorem organize_uniqueCandidates (md5f phashf : β → Option String) (T : Nat) (input : List β) :
    (organize_icons md5f phashf T input).uniqueCandidates =
      (groupByHash phashf (firstPaths (groupByHash md5f input))).filter
        fun g => decide (g.2.length = 1) &&
          decide (g.1 ∉ (clusterLoop hammingDist T
            (groupByHash phashf (firstPaths (groupByHash md5f input)))
            (groupByHash phashf (firstPaths (groupByHash md5f input))) [] []).2) := rfl

theorem organize_uniqueCount (md5f phashf : β → Option String) (T : Nat) (input : List β) :
    (organize_icons md5f phashf T input).uniqueCount =
      (organize_icons md5f phashf T input).uniqueCandidates.length := rfl

theorem organize_uniqueCandidates_eq_nil (md5f phashf : β → Option String) (T : Nat)
    (input : List β) : (organize_icons md5f phashf T input).uniqueCandidates = [] := by
  rw [organize_uniqueCandidates]
  apply List.filter_eq_nil_iff.mpr
  intro g hg
  have hk : g.1 ∈ (clusterLoop hammingDist T
      (groupByHash phashf (firstPaths (groupByHash md5f input)))
      (groupByHash phashf (firstPaths (groupByHash md5f input))) [] []).2 :=
    clusterLoop_keys_processed hammingDist T _ _ [] [] g.1 (List.mem_map_of_mem Prod.fst hg)
  simp [hk]

theorem organize_uniqueCount_eq_zero (md5f phashf : β → Option String) (T : Nat)
    (input : List β) : (organize_icons md5f phashf T input).uniqueCount = 0 := by
  rw [organize_uniqueCount, organize_uniqueCandidates_eq_nil]
  rfl

theorem organize_sims_sound (md5f phashf : β → Option String) (T : Nat) (input : List β) :
    ∀ g ∈ (organize_icons md5f phashf T input).similarGroups,
      ∃ seed x, g.head? = some x ∧ phashf x = some seed ∧
        ∀ y ∈ g, ∃ h', phashf y = some h' ∧ hammingDist seed h' ≤ T := by
  intro g hg
  rw [organize_similarGroups] at hg
  exact clusterLoop_sims_sound hammingDist T phashf hammingDist_self
    (groupByHash phashf (firstPaths (groupByHash md5f input)))
    (wf_groupByHash phashf (firstPaths (groupByHash md5f input)))
    (groupByHash phashf (firstPaths (groupByHash md5f input))) [] []
    (nonempty_groupByHash phashf (firstPaths (groupByHash md5f input)))
    (wf_groupByHash phashf (firstPaths (groupByHash md5f input)))
    (by intro g' hg'; cases hg') g hg

/-! ### Claim theorems -/

/-- C1 (code-bug evaluation): the spec says a singleton fingerprint
group whose fingerprint is never merged anywhere is emitted as a unique
icon, so its path appears in exactly one output.  Evaluating the code on
a run with a single readable image `d.png` (whose fingerprint group is a
singleton and is never merged into any cluster) shows the opposite: the
singleton group exists, yet `unique_count = 0` and there is no
similarity group either, so the path appears in no output at all - the
guard at line 122 is unsatisfiable because line 95 marks every seed
processed. -/
theorem C1_singleton_not_emitted :
    (organize_icons md5Solo phashSolo 2 ["d.png"]).phashGroups =
      [("0000000000000000", ["d.png"])] ∧
    (organize_icons md5Solo phashSolo 2 ["d.png"]).processedHashes =
      ["0000000000000000"] ∧
    (organize_icons md5Solo phashSolo 2 ["d.png"]).uniqueCount = 0 ∧
    (organize_icons md5Solo phashSolo 2 ["d.png"]).similarGroups = [] := by
  refine ⟨by decide, by decide, by decide, by decide⟩

/-- C2: when the clustering loop finishes, every key of the
fingerprint-group mapping is in `processed_hashes`, so the guard
`len(file_paths) == 1 and phash not in processed_hashes` of the
unique-icon loop selects nothing and `unique_count` is `0` on every
run. -/
theorem C2_every_key_processed (md5f phashf : β → Option String) (T : Nat)
    (input : List β) :
    (∀ k ∈ (organize_icons md5f phashf T input).phashGroups.map Prod.fst,
        k ∈ (organize_icons md5f phashf T input).processedHashes) ∧
    (organize_icons md5f phashf T input).uniqueCandidates = [] ∧
    (organize_icons md5f phashf T input).uniqueCount = 0 := by
  refine ⟨?_, organize_uniqueCandidates_eq_nil md5f phashf T input,
    organize_uniqueCount_eq_zero md5f phashf T input⟩
  intro k hk
  rw [organize_phashGroups] at hk
  rw [organize_processedHashes]
  exact clusterLoop_keys_processed hammingDist T _ _ [] [] k hk

/-- Witness for C2 at a concrete run. -/
theorem C2_every_key_processed_witness :
    "0000000000000000" ∈ (organize_icons md5Solo phashSolo 2 ["d.png"]).processedHashes ∧
    (organize_icons md5Solo phashSolo 2 ["d.png"]).uniqueCount = 0 :=
  ⟨(C2_every_key_processed md5Solo phashSolo 2 ["d.png"]).1 "0000000000000000" (by decide),
   (C2_every_key_processed md5Solo phashSolo 2 ["d.png"]).2.2⟩

/-- C3 counterexample: with a single discovered image whose digest and
fingerprint both succeed, `unique_icon_count + duplicate_count +
(excluded files)` is `0`, not the `1` discovered file, because the lone
representative ends up in no reported bucket. -/
theorem C3_partition_counterexample :
    (organize_icons md5Solo phashSolo 2 ["d.png"]).totalImages = 1 ∧
    (organize_icons md5Solo phashSolo 2 ["d.png"]).uniqueCount +
        (organize_icons md5Solo phashSolo 2 ["d.png"]).duplicateCount +
        ((["d.png"].filter fun p => (md5Solo p).isNone).length +
          ((organize_icons md5Solo phashSolo 2 ["d.png"]).uniqueImages.filter
            fun p => (phashSolo p).isNone).length) ≠ 1 := by
  refine ⟨by decide, by decide⟩

/-- C3 amended: the partition equation holds once the representatives
that produced a fingerprint are added as their own term (and
`unique_icon_count` is always `0`): `unique_icon_count +
duplicate_count + digest failures + fingerprint failures +
fingerprinted representatives = total discovered image files`. -/
theorem C3_partition_amended (md5f phashf : β → Option String) (T : Nat) (input : List β) :
    (organize_icons md5f phashf T input).uniqueCount +
      (organize_icons md5f phashf T input).duplicateCount +
      (input.filter fun p => (md5f p).isNone).length +
      ((organize_icons md5f phashf T input).uniqueImages.filter
        fun p => (phashf p).isNone).length +
      ((organize_icons md5f phashf T input).uniqueImages.filter
        fun p => (phashf p).isSome).length =
    (organize_icons md5f phashf T input).totalImages := by
  rw [organize_uniqueCount_eq_zero, organize_duplicateCount, organize_uniqueImages,
    organize_totalImages]
  have h1 : duplicateCountOf (groupByHash md5f input) + (groupByHash md5f input).length =
      sumLens (groupByHash md5f input) :=
    duplicateCountOf_add_length (nonempty_groupByHash md5f input)
  have h2 : sumLens (groupByHash md5f input) =
      (input.filter fun p => (md5f p).isSome).length := sumLens_groupByHash md5f input
  have h3 : (firstPaths (groupByHash md5f input)).length = (groupByHash md5f input).length :=
    length_firstPaths (nonempty_groupByHash md5f input)
  have h4 := length_filter_isSome_add_isNone phashf (firstPaths (groupByHash md5f input))
  have h5 := length_filter_isSome_add_isNone md5f input
  omega

/-- C4: in the merge scan for a seed `F`, the distance used is the count
of character positions at which the two hex strings differ, an
unprocessed other group `G` is merged exactly when that distance is at
most the threshold (and is then marked processed, its paths extending
the cluster), a cluster with more than one path is appended to the
retained similar groups, and every retained similar group has more than
one path. -/
theorem C4_merge_scan_characterization (T : Nat) (F G : String) (gp : List β)
    (gs : List (String × List β)) (c : List β) (p : List String)
    (hnd : (gs.map Prod.fst).Nodup) (hmem : (G, gp) ∈ gs) (hne : G ≠ F) (hp : G ∉ p) :
    (F.toList.length = G.toList.length → hammingDist F G = charDiffCount F G) ∧
    (G ∈ (scanOthers hammingDist T F gs c p).2 ↔ hammingDist F G ≤ T) ∧
    (hammingDist F G ≤ T → gp ⊆ (scanOthers hammingDist T F gs c p).1) ∧
    (∀ (sims : List (List β)) (rest : List (String × List β)) (q : List String)
        (ps : List β), F ∉ q → 1 < (scanOthers hammingDist T F gs ps (F :: q)).1.length →
      (scanOthers hammingDist T F gs ps (F :: q)).1 ∈
        (clusterLoop hammingDist T gs ((F, ps) :: rest) sims q).1) ∧
    (∀ g ∈ (clusterLoop hammingDist T gs gs [] []).1, 1 < g.length) := by
  refine ⟨hammingDist_eq_charDiffCount F G, ⟨?_, ?_⟩, ?_, ?_, ?_⟩
  · intro hmem2
    rcases scanOthers_processed_spec hammingDist T F gs c p G hmem2 with hG | hG
    · exact absurd hG hp
    · exact hG.2.2
  · intro hdist
    exact (scanOthers_merges hammingDist T F gs G gp c p hnd hmem hne hdist hp).1
  · intro hdist
    exact (scanOthers_merges hammingDist T F gs G gp c p hnd hmem hne hdist hp).2
  · intro sims rest q ps hq hlen
    exact clusterLoop_retains hammingDist T gs rest sims q F ps hq hlen
  · exact clusterLoop_sims_big hammingDist T gs gs [] [] (by intro g hg; cases hg)

/-- Witness for C4 at a concrete two-group instance. -/
theorem C4_merge_scan_characterization_witness :
    ("ab" ∈ (scanOthers hammingDist 1 "aa"
        [("aa", ["x"]), ("ab", ["y"])] ([] : List String) []).2 ↔
      hammingDist "aa" "ab" ≤ 1) ∧
    (∀ g ∈ (clusterLoop hammingDist 1 [("aa", ["x"]), ("ab", ["y"])]
        [("aa", ["x"]), ("ab", ["y"])] [] []).1, 1 < g.length) :=
  ⟨(C4_merge_scan_characterization 1 "aa" "ab" ["y"] [("aa", ["x"]), ("ab", ["y"])] [] []
      (by decide) (by decide) (by decide) (by decide)).2.1,
   (C4_merge_scan_characterization 1 "aa" "ab" ["y"] [("aa", ["x"]), ("ab", ["y"])] [] []
      (by decide) (by decide) (by decide) (by decide)).2.2.2.2⟩

/-- C5: every retained similarity cluster has a seed fingerprint - the
fingerprint of its first member - and every member's fingerprint is
within the threshold of that seed. -/
theorem C5_cluster_within_threshold (md5f phashf : β → Option String) (T : Nat)
    (input : List β) :
    ∀ g ∈ (organize_icons md5f phashf T input).similarGroups,
      ∃ seed x, g.head? = some x ∧ phashf x = some seed ∧
        ∀ y ∈ g, ∃ h', phashf y = some h' ∧ hammingDist seed h' ≤ T :=
  organize_sims_sound md5f phashf T input

/-- Witness for C5 at the three-file run. -/
theorem C5_cluster_within_threshold_witness :
    ∃ seed x, (["a.png", "c.png"] : List String).head? = some x ∧
      phashDemo x = some seed ∧
      ∀ y ∈ ["a.png", "c.png"], ∃ h', phashDemo y = some h' ∧ hammingDist seed h' ≤ 2 :=
  C5_cluster_within_threshold md5Demo phashDemo 2 ["a.png", "b.png", "c.png"]
    ["a.png", "c.png"] (by decide)

/-- C6 counterexample: with groups `aaaaaa ↦ [pA1, pA2]`, `bbbbba ↦
[pB]`, `bbbbbb ↦ [pC]`, at threshold 1 the seed `bbbbba` retains a
cluster of size 2, but at threshold 5 ≥ 1 the fingerprint `bbbbba` is
merged into `aaaaaa`'s cluster first and seeds no cluster at all, so no
cluster for the same seed exists at the higher threshold. -/
theorem C6_monotonicity_counterexample :
    (1 : Nat) ≤ 5 ∧
    ("bbbbba", ["pB", "pC"]) ∈ (clusterLoopSeeded hammingDist 1 cexGroups cexGroups [] []).1 ∧
    (∀ g ∈ (clusterLoopSeeded hammingDist 5 cexGroups cexGroups [] []).1,
      g.1 ≠ "bbbbba") ∧
    (clusterLoopSeeded hammingDist 1 cexGroups cexGroups [] []).1.map Prod.snd =
      (clusterLoop hammingDist 1 cexGroups cexGroups [] []).1 := by
  refine ⟨by decide, by decide, by decide, by decide⟩

/-- C6 amended: merging is monotone in the threshold for a single merge
scan: for the same seed, the same group list and the same initial
processed set, the cluster built at threshold `T1 ≤ T2` is never longer
than the cluster built at `T2`.  (Across a full run, raising the
threshold can change which fingerprints seed clusters, so a cluster
existing at the lower threshold may have no counterpart for the same
seed at the higher one - see the counterexample.) -/
theorem C6_monotonicity_amended (T1 T2 : Nat) (hT : T1 ≤ T2) (seed : String)
    (gs : List (String × List β)) (c : List β) (p : List String)
    (hnd : (gs.map Prod.fst).Nodup) :
    (scanOthers hammingDist T1 seed gs c p).1.length ≤
      (scanOthers hammingDist T2 seed gs c p).1.length :=
  scanOthers_len_mono hammingDist seed T1 T2 hT gs c p hnd

/-- Witness for the amended C6 at the counterexample's groups. -/
theorem C6_monotonicity_amended_witness :
    (scanOthers hammingDist 1 "aaaaaa" cexGroups ([] : List String) []).1.length ≤
      (scanOthers hammingDist 5 "aaaaaa" cexGroups [] []).1.length :=
  C6_monotonicity_amended 1 5 (by decide) "aaaaaa" cexGroups [] [] (by decide)

/-- C7: the exact-duplicate stage keys its groups by distinct digests,
each group's representative (its first stored path) is the
first-discovered input path with that digest, the representative list
preserves discovery order, and `duplicate_count` equals the number of
paths that produced a digest minus the number of distinct digests. -/
theorem C7_digest_stage (md5f : β → Option String) (input : List β) :
    (∀ (h : String) (ps : List β), (h, ps) ∈ groupByHash md5f input →
      ps.head? = input.find? fun p => decide (md5f p = some h)) ∧
    List.Sublist (firstPaths (groupByHash md5f input)) input ∧
    ((groupByHash md5f input).map Prod.fst).Nodup ∧
    (∀ h : String, h ∈ (groupByHash md5f input).map Prod.fst ↔
      ∃ p ∈ input, md5f p = some h) ∧
    duplicateCountOf (groupByHash md5f input) =
      (input.filter fun p => (md5f p).isSome).length - (groupByHash md5f input).length := by
  refine ⟨?_, firstPaths_groupByHash_sublist md5f input, nodupKeys_groupByHash md5f input,
    mem_keys_groupByHash md5f input, ?_⟩
  · intro h ps hmem
    rw [mem_eq_valueOf (nodupKeys_groupByHash md5f input) hmem, valueOf_groupByHash,
      head?_filter_eq_find?]
  · have h1 : duplicateCountOf (groupByHash md5f input) + (groupByHash md5f input).length =
        sumLens (groupByHash md5f input) :=
      duplicateCountOf_add_length (nonempty_groupByHash md5f input)
    have h2 : sumLens (groupByHash md5f input) =
        (input.filter fun p => (md5f p).isSome).length := sumLens_groupByHash md5f input
    omega

/-- Witness for C7 at the three-file digests. -/
theorem C7_digest_stage_witness :
    (["a.png", "b.png"] : List String).head? =
      (["a.png", "b.png", "c.png"].find? fun p => decide (md5Demo p = some "m1")) ∧
    duplicateCountOf (groupByHash md5Demo ["a.png", "b.png", "c.png"]) =
      ((["a.png", "b.png", "c.png"].filter fun p => (md5Demo p).isSome).length -
        (groupByHash md5Demo ["a.png", "b.png", "c.png"]).length) :=
  ⟨(C7_digest_stage md5Demo ["a.png", "b.png", "c.png"]).1 "m1" ["a.png", "b.png"]
      (by decide),
   (C7_digest_stage md5Demo ["a.png", "b.png", "c.png"]).2.2.2.2⟩

/-- C8: the three-file scenario - `b.png` byte-identical to `a.png`,
`c.png` within character distance 2 of `a.png`'s fingerprint - yields
`duplicate_count = 1`, exactly one similarity group of size two holding
`a.png` (the digest group's representative) and `c.png`, and zero
unique icons. -/
theorem C8_three_file_scenario :
    (organize_icons md5Demo phashDemo 2 ["a.png", "b.png", "c.png"]).duplicateCount = 1 ∧
    (organize_icons md5Demo phashDemo 2 ["a.png", "b.png", "c.png"]).similarGroups =
      [["a.png", "c.png"]] ∧
    (organize_icons md5Demo phashDemo 2 ["a.png", "b.png", "c.png"]).uniqueCount = 0 := by
  refine ⟨by decide, by decide, by decide⟩

/-- C9: per-file failures are local and non-fatal: a path whose digest
computation fails (yields `none`) is in no digest group, a path whose
fingerprint computation fails is in no fingerprint group and in no
similarity group, and each grouping equals the grouping of the
successfully hashed paths alone (the remaining paths are still
processed). -/
theorem C9_failures_local (md5f phashf : β → Option String) (T : Nat) (input : List β)
    (p : β) :
    (md5f p = none → ∀ g ∈ (organize_icons md5f phashf T input).md5Groups, p ∉ g.2) ∧
    (phashf p = none →
      (∀ g ∈ (organize_icons md5f phashf T input).phashGroups, p ∉ g.2) ∧
      (∀ g ∈ (organize_icons md5f phashf T input).similarGroups, p ∉ g)) ∧
    (organize_icons md5f phashf T input).md5Groups =
      groupByHash md5f (input.filter fun q => (md5f q).isSome) ∧
    (organize_icons md5f phashf T input).phashGroups =
      groupByHash phashf
        ((organize_icons md5f phashf T input).uniqueImages.filter
          fun q => (phashf q).isSome) := by
  refine ⟨?_, ?_, ?_, ?_⟩
  · intro hnone g hg hpg
    rw [organize_md5Groups] at hg
    have := wf_groupByHash md5f input g hg p hpg
    rw [hnone] at this
    cases this
  · intro hnone
    constructor
    · intro g hg hpg
      rw [organize_phashGroups] at hg
      have := wf_groupByHash phashf (firstPaths (groupByHash md5f input)) g hg p hpg
      rw [hnone] at this
      cases this
    · intro g hg hpg
      have hsound := organize_sims_sound md5f phashf T input g hg
      obtain ⟨seed, x, _, _, hall⟩ := hsound
      obtain ⟨h', hh', _⟩ := hall p hpg
      rw [hnone] at hh'
      cases hh'
  · rw [organize_md5Groups]
    exact groupByHash_filter_isSome md5f input
  · rw [organize_phashGroups, organize_uniqueImages]
    exact groupByHash_filter_isSome phashf (firstPaths (groupByHash md5f input))

/-- Witness for C9: a path with failing digest is excluded while the
rest of the run proceeds. -/
theorem C9_failures_local_witness :
    "zzz.png" ∉ ["d.png"] ∧
    (organize_icons md5Solo phashSolo 2 ["d.png", "zzz.png"]).md5Groups =
      groupByHash md5Solo (["d.png", "zzz.png"].filter fun q => (md5Solo q).isSome) :=
  ⟨fun hmem =>
      (C9_failures_local md5Solo phashSolo 2 ["d.png", "zzz.png"] "zzz.png").1 (by decide)
        ("m0", ["d.png"]) (by decide) hmem,
   (C9_failures_local md5Solo phashSolo 2 ["d.png", "zzz.png"] "zzz.png").2.2.1⟩

/-- C10 counterexample: with the three group members `icon_2.png`,
`icon.png`, `icon.png`, the third member collides with `icon.png`, is
renamed with its position index to `icon_2.png`, and overwrites the
first member's copy: the chosen destination names repeat. -/
theorem C10_collision_counterexample :
    copyGroupDests [("icon_2", ".png"), ("icon", ".png"), ("icon", ".png")] 0 [] =
      ["icon_2.png", "icon.png", "icon_2.png"] ∧
    ¬ (copyGroupDests [("icon_2", ".png"), ("icon", ".png"), ("icon", ".png")] 0 []).Nodup := by
  refine ⟨by decide, by decide⟩

/-- C10 amended: a collision is resolved by appending the member's
position index to the base name, and for a group of exactly two members
the two destinations are always distinct (the two-file scenario is
safe); with three or more members the suffixed name is not re-checked
against the directory, so it can repeat an earlier destination and the
later copy overwrites it (see the counterexample).  The unique-icon
branch never runs because `unique_count` is always `0`. -/
theorem C10_collision_amended (b0 e0 b1 e1 : String) :
    (∀ (j : Nat) (fs : List String) (rest : List (String × String)),
      fullName b0 e0 ∈ fs →
      (copyGroupDests ((b0, e0) :: rest) j fs).head? = some (suffixedName b0 e0 j)) ∧
    (copyGroupDests [(b0, e0), (b1, e1)] 0 []).Nodup := by
  constructor
  · intro j fs rest hmem
    simp only [copyGroupDests]
    rw [if_pos hmem]
    rfl
  · by_cases hmem : fullName b1 e1 ∈ [fullName b0 e0]
    · have h1 : fullName b1 e1 = fullName b0 e0 := by simpa using hmem
      have hne : suffixedName b1 e1 1 ≠ fullName b0 e0 := by
        intro he
        have hl := congrArg String.length (he.trans h1.symm)
        have h2 : ("_" : String).length = 1 := rfl
        have h3 : (toString (1 : Nat)).length = 1 := rfl
        simp [suffixedName, fullName, String.length_append, h2, h3] at hl
        omega
      simp [copyGroupDests, h1]
      exact fun he => hne he.symm
    · have hne' : fullName b1 e1 ≠ fullName b0 e0 := by simpa using hmem
      simp [copyGroupDests, hne']
      exact fun he => hne' he.symm

/-- Witness for the amended C10. -/
theorem C10_collision_amended_witness :
    (copyGroupDests [("icon", ".png")] 1 ["icon.png"]).head? =
      some (suffixedName "icon" ".png" 1) ∧
    (copyGroupDests [("a", ".png"), ("a", ".png")] 0 []).Nodup :=
  ⟨(C10_collision_amended "icon" ".png" "a" ".png").1 1 ["icon.png"] [] (by decide),
   (C10_collision_amended "a" ".png" "a" ".png").2⟩

end IconOrganizer
